import Mathlib

/-!
Shallow embedding of the price-snapshot maintenance engine of
`price_monitor_github.py` (B0x price monitor), together with proofs of the
spec-level properties of its core operations.

Modelling conventions:
* Unix timestamps are `Nat` (seconds, UTC); all `datetime` manipulation in the
  source is UTC-only and is embedded as arithmetic on seconds.
* Python block numbers are `Int` (they are plain Python ints and the iterative
  correction can drive them below zero).
* Python floats used for prices and the seconds-per-block rate are embedded as
  exact rationals `ℚ`; `int(x)` is embedded as truncation toward zero.
* Network reads (`w3.eth.get_block`, `w3.eth.get_storage_at`) are embedded as
  oracle functions returning `Option`; `none` models a raised exception.
* Python stable `list.sort(key=timestamp)` is embedded as a stable insertion
  sort (`sortByTs`); any two stable sorts by the same key agree, so this is
  behaviour-preserving.
-/

namespace PriceMonitor

/-- A data point of the series: the three parallel arrays
`timestamps` / `blocks` / `prices` of the source, converted to a record. -/
structure Sample where
  ts : Nat
  block : Int
  price : ℚ
deriving DecidableEq, Repr

/-- The target collection hours (midnight, 6am, noon, 6pm UTC). -/
def TARGET_HOURS : List Nat := [0, 6, 12, 18]

/-- Absolute distance between two naturals (Python `abs(a - b)` on ints). -/
def natDist (a b : Nat) : Nat := ((a : Int) - (b : Int)).natAbs

/-- Embeds `is_target_time(timestamp, tolerance_minutes)`: true when the
circular minutes-of-day distance from the timestamp to one of the four
target hours is at most the tolerance. -/
def is_target_time (ts : Nat) (tol : Nat) : Bool :=
  let hour := ts / 3600 % 24
  let minute := ts / 60 % 60
  TARGET_HOURS.any fun th =>
    let d := natDist (hour * 60 + minute) (th * 60)
    min d (24 * 60 - d) ≤ tol

/-- First-seen argmin by distance to a target, embedding the source
`closest = None; for dp in points: if distance < min_distance: update`
loops (a strict comparison, so the first minimiser encountered wins). -/
def pickClosestTs (ts : Nat) (cands : List Nat) : Option Nat :=
  cands.foldl
    (fun acc c =>
      match acc with
      | none => some c
      | some b => if natDist ts c < natDist ts b then some c else some b)
    none

/-- Embeds `get_exact_target_timestamp(timestamp)`: the closest canonical
instant among the four same-day instants and the next day midnight. -/
def get_exact_target_timestamp (ts : Nat) : Nat :=
  let d0 := ts / 86400 * 86400
  let cands := (TARGET_HOURS.map fun h => d0 + h * 3600) ++ [d0 + 86400]
  (pickClosestTs ts cands).getD 0

/-- Embeds `unpack_slot0(packed)`: bit-field extraction from the packed
256-bit pool state word. -/
def unpack_slot0 (packed : Nat) : Nat × Int × Nat × Nat :=
  let sqrtPriceX96 := packed &&& ((1 <<< 160) - 1)
  let tickRaw := (packed >>> 160) &&& ((1 <<< 24) - 1)
  let tick : Int :=
    if tickRaw &&& (1 <<< 23) ≠ 0 then (tickRaw : Int) - ((1 <<< 24 : Nat) : Int)
    else (tickRaw : Int)
  let protocolFee := (packed >>> 184) &&& ((1 <<< 24) - 1)
  let lpFee := (packed >>> 208) &&& ((1 <<< 24) - 1)
  (sqrtPriceX96, tick, protocolFee, lpFee)

/-- Stable insertion of a sample into a timestamp-sorted list: the new element
goes after every element whose timestamp is less than or equal to its own. -/
def insertTs (x : Sample) : List Sample → List Sample
  | [] => [x]
  | a :: l => if a.ts ≤ x.ts then a :: insertTs x l else x :: a :: l

/-- Stable sort by timestamp, embedding Python stable `list.sort(key=ts)`. -/
def sortByTs (l : List Sample) : List Sample :=
  l.foldl (fun acc x => insertTs x acc) []

/-- Key of a target sample: the canonical instant it is bucketed under. -/
def tkey (s : Sample) : Nat := get_exact_target_timestamp s.ts

/-- Whether a sample is near a canonical instant (tolerance 30 minutes),
exactly as every call site of `is_target_time` uses it. -/
def isTarget (s : Sample) : Bool := is_target_time s.ts 30

/-- Keys in first-encounter order with duplicates dropped: the iteration
order of the Python dict `target_groups`. -/
def firstKeys : List Nat → List Nat
  | [] => []
  | k :: ks => k :: (firstKeys ks).filter (fun x => x ≠ k)

/-- Group of target samples bucketed under key `k`, in encounter order. -/
def groupOf (l : List Sample) (k : Nat) : List Sample :=
  (l.filter isTarget).filter fun s => tkey s == k

/-- First-seen closest sample of a group to its canonical instant, embedding
the strict-minimum scan of the dedup loop (singleton groups are taken as-is,
which the scan also does). -/
def pickClosest (k : Nat) (g : List Sample) : Option Sample :=
  g.foldl
    (fun acc s =>
      match acc with
      | none => some s
      | some b => if natDist s.ts k < natDist b.ts k then some s else some b)
    none

/-- One deduplicated representative per canonical instant, in dict
(first-encounter) order: the `deduplicated_targets` list of the source. -/
def dedupTargets (l : List Sample) : List Sample :=
  (firstKeys ((l.filter isTarget).map tkey)).filterMap fun k =>
    pickClosest k (groupOf l k)

/-- Embeds `comprehensive_data_cleanup_with_dedup`: bucket target samples by
canonical instant keeping the closest per bucket, keep only the most recent
off-target sample, and return everything sorted by timestamp. -/
def comprehensive_data_cleanup_with_dedup (l : List Sample) : List Sample :=
  if l.isEmpty then l
  else
    let tgt := sortByTs (dedupTargets l)
    let non := sortByTs (l.filter fun s => !isTarget s)
    let cleaned :=
      match non.getLast? with
      | some m => tgt ++ [m]
      | none => tgt
    sortByTs cleaned

/-- Start of the UTC day of a timestamp
(`datetime.replace(hour=0, minute=0, second=0, microsecond=0)`). -/
def startOfUTCDay (ts : Nat) : Nat := ts / 86400 * 86400

/-- Embeds `get_30_day_date_range(current_timestamp)`: `(start, end)` of the
active window, with `end` the start of the current UTC day and `start`
29 days earlier. -/
def get_30_day_date_range (now : Nat) : Nat × Nat :=
  (startOfUTCDay now - 29 * 86400, startOfUTCDay now)

/-- Embeds the mark-and-remove pass of `enforce_30_day_limit`: drop every
sample that is near-target and older than the cutoff. -/
def removeOldTargets (cutoff : Nat) : List Sample → List Sample
  | [] => []
  | s :: l =>
    if isTarget s ∧ s.ts < cutoff then removeOldTargets cutoff l
    else s :: removeOldTargets cutoff l

/-- Embeds `enforce_30_day_limit`: keep only near-target samples from the
active 30-day window; off-target samples are untouched. -/
def enforce_30_day_limit (now : Nat) (l : List Sample) : List Sample :=
  if l.isEmpty then l
  else removeOldTargets (get_30_day_date_range now).1 l

/-- Embeds the removal pass of `update_current_price`: drop every sample
that is not near a canonical instant. -/
def removeNonTargets : List Sample → List Sample
  | [] => []
  | s :: l => if isTarget s then s :: removeNonTargets l else removeNonTargets l

/-- Embeds `update_current_price`: remove all off-target samples, then append
one fresh sample for the current observation. -/
def update_current_price (l : List Sample) (currentTimestamp : Nat)
    (currentBlock : Int) (currentPrice : ℚ) : List Sample :=
  removeNonTargets l ++ [⟨currentTimestamp, currentBlock, currentPrice⟩]

/-- Error raised when `get_storage_with_retry` exhausts its retries.  Its
fields are exactly the data interpolated into the RuntimeError message of
the source — failed to fetch storage slot, after so many retries: the slot
and the retry count. -/
structure SlotFetchError where
  slot : Nat
  retries : Nat
deriving DecidableEq, Repr

/-- The fixed inter-attempt sleep (seconds) of the retry loop
(`delay=2` in the source); real time is not observable in this embedding. -/
def retryDelaySeconds : Nat := 2

/-- Retry scan: `f` maps the attempt index to the outcome of that attempt
(`none` models a raised transport/decoding exception).  Returns the first
successful word, if any, together with the number of attempts made. -/
def retryGo (f : Nat → Option Nat) : Nat → Nat → Option Nat × Nat
  | _, 0 => (none, 0)
  | attempt, fuel + 1 =>
    match f attempt with
    | some v => (some v, 1)
    | none =>
      let r := retryGo f (attempt + 1) fuel
      (r.1, r.2 + 1)

/-- Embeds `get_storage_with_retry(address, slot, block, retries, delay)`:
attempt the fetch up to `retries` times, return the whole word on the first
success, and raise `SlotFetchError` carrying the slot and the retry count
after exhaustion.  The `block` argument only selects what the oracle `f`
answers; it does not occur in the error. -/
def get_storage_with_retry (f : Nat → Option Nat) (slot : Nat) (block : Int)
    (retries : Nat) : Except SlotFetchError Nat :=
  match (retryGo f 0 retries).1 with
  | some v => Except.ok v
  | none => Except.error ⟨slot, retries⟩

/-- The fixed-point scale `2 ** 192` of `sqrtPriceX96`. -/
def Q192 : ℚ := 2 ^ 192

/-- Embeds `sqrtPriceX96_to_price(sq) = sq ** 2 / Q192`. -/
def sqrtPriceX96_to_price (sq : Nat) : ℚ := ((sq : ℚ) ^ 2) / Q192

/-- Storage slot of the BWORK/WETH pool inside the pool manager. -/
def bworkWethSlot : Nat :=
  0x22248320df202cdd197bde01853e465489bc8fc662624a6f91b277813ba0c0da

/-- Storage slot of the WETH/USD pool inside the pool manager. -/
def wethUsdSlot : Nat :=
  0xe570f6e770bf85faa3d1dbee2fa168b56036a048a7939edbcd02d7ebddf3f948

/-- Embeds `getSlot0(block)`: two retried storage reads, price derivation,
and the final combination `price2 * (1 / price)`.  Returns `none` when either
read exhausts its retries or when the first pool price is zero (Python
`1 / price` raises `ZeroDivisionError` there); also returns the number of
storage-read attempts issued.  `st slot block attempt` is the outcome of one
`get_storage_at` attempt. -/
def getSlot0 (st : Nat → Int → Nat → Option Nat) (block : Int) :
    Option ℚ × Nat :=
  let r1 := retryGo (fun a => st bworkWethSlot block a) 0 5
  match r1.1 with
  | none => (none, r1.2)
  | some p1 =>
    let price := sqrtPriceX96_to_price (unpack_slot0 p1).1
    let r2 := retryGo (fun a => st wethUsdSlot block a) 0 5
    match r2.1 with
    | none => (none, r1.2 + r2.2)
    | some p2 =>
      let price2 := sqrtPriceX96_to_price (unpack_slot0 p2).1 * 10 ^ 12
      if price = 0 then (none, r1.2 + r2.2)
      else (some (price2 * (1 / price)), r1.2 + r2.2)

/-- Truncation of a rational toward zero: Python `int(x)`. -/
def ratTrunc (q : ℚ) : Int := q.num.tdiv (q.den : Int)

/-- The seconds-per-block rate of Step 1 of the estimator: the measured rate
when both deltas are positive, else the fallback constant `2.0`. -/
def step1_rate (actualTimeDiff actualBlockDiff : Int) : ℚ :=
  if 0 < actualBlockDiff ∧ 0 < actualTimeDiff then
    (actualTimeDiff : ℚ) / (actualBlockDiff : ℚ)
  else 2

/-- Embeds `estimate_block_from_timestamp(target, current_block, current_ts)`.
`getBlockTs` maps a block number to its timestamp (`none` models a raised
exception, which the source catches with the 2-seconds-per-block fallback).
Always returns a block number, and always at least 1. -/
def estimate_block_from_timestamp (getBlockTs : Int → Option Nat)
    (targetTimestamp currentBlock currentTimestamp : Nat) : Int :=
  let sampleBlock : Int := max 1 ((currentBlock : Int) - 43200)
  match getBlockTs sampleBlock with
  | none =>
    let blocksDiff := ((currentTimestamp : Int) - (targetTimestamp : Int)).tdiv 2
    max 1 ((currentBlock : Int) - blocksDiff)
  | some sampleTs =>
    let secondsPerBlock :=
      step1_rate ((currentTimestamp : Int) - (sampleTs : Int))
        ((currentBlock : Int) - sampleBlock)
    let blocksDiff :=
      ratTrunc (((currentTimestamp : Int) - (targetTimestamp : Int) : ℚ) / secondsPerBlock)
    max 1 ((currentBlock : Int) - blocksDiff)

/-- One adjustment of the iterative correction loop of
`collect_historical_data`: move the guess by `int(gap / 2)` blocks toward
the target (the divisor is the constant 2, not the Step-1 rate). -/
def correctionAdjust (est : Int) (actual target : Nat) : Int :=
  if actual < target then est + ((target - actual) / 2 : Nat)
  else est - ((actual - target) / 2 : Nat)

/-- Embeds the iterative correction loop (`while |actual - target| > 1800 and
attempts < 10`): returns the final `(block, actual timestamp)` pair, or `none`
when a block fetch raises (the whole data point is then skipped), together
with the number of block fetches issued. -/
def correction_loop (getBlockTs : Int → Option Nat) (target : Nat) :
    Nat → Int → Nat → Option (Int × Nat) × Nat
  | attempts, est, actual =>
    if h : 1800 < natDist actual target ∧ attempts < 10 then
      let est2 := correctionAdjust est actual target
      match getBlockTs est2 with
      | none => (none, 1)
      | some a2 =>
        let r := correction_loop getBlockTs target (attempts + 1) est2 a2
        (r.1, r.2 + 1)
    else (some (est, actual), 0)
  termination_by attempts => 10 - attempts
  decreasing_by omega

/-- Embeds `get_target_timestamps_for_day(day_timestamp)`: the four canonical
instants of the UTC day containing the given timestamp. -/
def get_target_timestamps_for_day (dayTs : Nat) : List Nat :=
  TARGET_HOURS.map fun h => startOfUTCDay dayTs + h * 3600

/-- The canonical instants enumerated by the day loop of
`get_missing_timestamps`: every target instant of every UTC day from the
start to the end of the active 30-day window. -/
def canonical_instants (now : Nat) : List Nat :=
  let r := get_30_day_date_range now
  ((List.range ((r.2 - r.1) / 86400 + 1)).map fun k => r.1 + k * 86400).flatMap
    get_target_timestamps_for_day

/-- Stable insertion for plain naturals (used to embed `missing.sort()`). -/
def insertNat (x : Nat) : List Nat → List Nat
  | [] => [x]
  | a :: l => if a ≤ x then a :: insertNat x l else x :: a :: l

/-- Stable sort of a list of naturals. -/
def sortNat (l : List Nat) : List Nat :=
  l.foldl (fun acc x => insertNat x acc) []

/-- Embeds `get_missing_timestamps(timestamps, current_timestamp)`: the
canonical instants of the active window that are in the past and not covered
(exactly or within 30 minutes) by an existing near-target timestamp. -/
def get_missing_timestamps (timestamps : List Nat) (now : Nat) : List Nat :=
  let existing := timestamps.filter fun ts => is_target_time ts 30
  sortNat ((canonical_instants now).filter fun t =>
    t < now && !existing.contains t && !existing.any fun e => natDist e t < 30 * 60)

/-- The two network oracles of the collector: block-number to timestamp, and
per-attempt storage reads `(slot, block, attempt) ↦ word`. -/
structure ChainOracle where
  getBlockTs : Int → Option Nat
  getStorage : Nat → Int → Nat → Option Nat

/-- Embeds the chronological-position insertion of a collected sample
(the `insert_pos` scan over existing timestamps). -/
def insertChronological (x : Sample) : List Sample → List Sample
  | [] => [x]
  | a :: l => if x.ts > a.ts then a :: insertChronological x l else x :: a :: l

/-- Embeds the body of the collection loop of `collect_historical_data` for
one missing instant and then the rest: estimate the block, fetch it, run the
iterative correction, read the price, and insert the sample; any failure
skips just that instant.  Returns the series and the number of network calls
issued (block fetches and storage-read attempts; the periodic progress saves
and sleeps of the source are not network calls and are not modelled). -/
def backfill_points (ch : ChainOracle) (currentBlock currentTimestamp : Nat) :
    List Nat → List Sample → List Sample × Nat
  | [], l => (l, 0)
  | t :: ms, l =>
    let est := estimate_block_from_timestamp ch.getBlockTs t currentBlock currentTimestamp
    match ch.getBlockTs est with
    | none =>
      let r := backfill_points ch currentBlock currentTimestamp ms l
      (r.1, r.2 + 2)
    | some actual =>
      let c := correction_loop ch.getBlockTs t 0 est actual
      match c.1 with
      | none =>
        let r := backfill_points ch currentBlock currentTimestamp ms l
        (r.1, r.2 + 2 + c.2)
      | some fin =>
        let p := getSlot0 ch.getStorage fin.1
        match p.1 with
        | none =>
          let r := backfill_points ch currentBlock currentTimestamp ms l
          (r.1, r.2 + 2 + c.2 + p.2)
        | some price =>
          let r := backfill_points ch currentBlock currentTimestamp ms
            (insertChronological ⟨fin.2, fin.1, price⟩ l)
          (r.1, r.2 + 2 + c.2 + p.2)

/-- Embeds `collect_historical_data` from the point where the current block
and timestamp are known (obtaining them is the preceding pipeline stage in
the spec decomposition): determine the missing instants and backfill them.
Returns the series and the number of network calls issued. -/
def collect_historical_data (ch : ChainOracle) (currentBlock currentTimestamp : Nat)
    (l : List Sample) : List Sample × Nat :=
  let missing := get_missing_timestamps (l.map Sample.ts) currentTimestamp
  if missing.isEmpty then (l, 0)
  else backfill_points ch currentBlock currentTimestamp missing l

/-- The sort invariant of the series: non-decreasing timestamps. -/
abbrev TsSorted (l : List Sample) : Prop :=
  l.Pairwise fun a b => a.ts ≤ b.ts

theorem insertTs_perm (x : Sample) (l : List Sample) :
    List.Perm (insertTs x l) (x :: l) := by
  induction l with
  | nil => exact List.Perm.refl _
  | cons a t ih =>
    simp only [insertTs]
    split
    · exact ((ih.cons a).trans (List.Perm.swap x a t))
    · exact List.Perm.refl _

theorem foldl_insertTs_perm (l : List Sample) :
    ∀ acc, List.Perm (l.foldl (fun acc x => insertTs x acc) acc) (l ++ acc) := by
  induction l with
  | nil => intro acc; simp
  | cons a t ih =>
    intro acc
    simp only [List.foldl_cons]
    refine (ih (insertTs a acc)).trans ?_
    refine (List.Perm.append_left t (insertTs_perm a acc)).trans ?_
    exact List.perm_middle

theorem sortByTs_perm (l : List Sample) : List.Perm (sortByTs l) l := by
  simpa using foldl_insertTs_perm l []

theorem insertTs_pairwise {x : Sample} {l : List Sample} (h : TsSorted l) :
    TsSorted (insertTs x l) := by
  induction l with
  | nil => simp [insertTs]
  | cons a t ih =>
    replace h := List.pairwise_cons.1 h
    simp only [insertTs]
    split
    · rename_i hax
      refine List.pairwise_cons.2 ⟨?_, ih h.2⟩
      intro b hb
      rcases List.mem_cons.1 ((insertTs_perm x t).mem_iff.1 hb) with rfl | hb
      · exact hax
      · exact h.1 b hb
    · rename_i hax
      refine List.pairwise_cons.2 ⟨?_, List.pairwise_cons.2 ⟨h.1, h.2⟩⟩
      intro b hb
      rcases List.mem_cons.1 hb with rfl | hb
      · omega
      · have := h.1 b hb
        omega

theorem foldl_insertTs_sorted (l : List Sample) :
    ∀ acc, TsSorted acc → TsSorted (l.foldl (fun acc x => insertTs x acc) acc) := by
  induction l with
  | nil => intro acc h; simpa using h
  | cons a t ih =>
    intro acc h
    simpa using ih (insertTs a acc) (insertTs_pairwise h)

theorem sortByTs_sorted (l : List Sample) : TsSorted (sortByTs l) :=
  foldl_insertTs_sorted l [] List.Pairwise.nil

theorem insertTs_append_of_le {x : Sample} {l : List Sample}
    (h : ∀ a ∈ l, a.ts ≤ x.ts) : insertTs x l = l ++ [x] := by
  induction l with
  | nil => rfl
  | cons a t ih =>
    have ha : a.ts ≤ x.ts := h a (List.mem_cons_self a t)
    simp only [insertTs, if_pos ha, List.cons_append]
    rw [ih fun b hb => h b (List.mem_cons_of_mem a hb)]

theorem foldl_insertTs_eq_append (l : List Sample) :
    ∀ acc, TsSorted (acc ++ l) →
      l.foldl (fun acc x => insertTs x acc) acc = acc ++ l := by
  induction l with
  | nil => intro acc _; simp
  | cons a t ih =>
    intro acc h
    replace h := List.pairwise_append.1 h
    have hins : insertTs a acc = acc ++ [a] :=
      insertTs_append_of_le fun b hb => h.2.2 b hb a (List.mem_cons_self a t)
    simp only [List.foldl_cons, hins]
    have hrest : TsSorted ((acc ++ [a]) ++ t) := by
      rw [List.append_assoc, List.singleton_append]
      exact List.pairwise_append.2 h
    rw [ih (acc ++ [a]) hrest, List.append_assoc, List.singleton_append]

theorem sortByTs_eq_self {l : List Sample} (h : TsSorted l) : sortByTs l = l := by
  simpa using foldl_insertTs_eq_append l [] (by simpa using h)

theorem sortByTs_append_singleton (l : List Sample) (m : Sample) :
    sortByTs (l ++ [m]) = insertTs m (sortByTs l) := by
  simp [sortByTs, List.foldl_append]

theorem filter_insertTs_of_neg {p : Sample → Bool} {m : Sample}
    (hm : p m = false) (l : List Sample) :
    (insertTs m l).filter p = l.filter p := by
  induction l with
  | nil => simp [insertTs, hm]
  | cons a t ih =>
    simp only [insertTs]
    split
    · rw [List.filter_cons, List.filter_cons]
      cases hpa : p a <;> simp [hpa, ih]
    · simp [List.filter_cons, hm]

theorem filter_insertTs_of_pos {p : Sample → Bool} {m : Sample}
    (hm : p m = true) {l : List Sample} (hl : ∀ a ∈ l, p a = false) :
    (insertTs m l).filter p = [m] := by
  induction l with
  | nil => simp [insertTs, hm]
  | cons a t ih =>
    have hpa : p a = false := hl a (List.mem_cons_self a t)
    simp only [insertTs]
    split
    · rw [List.filter_cons, hpa]
      simpa using ih fun b hb => hl b (List.mem_cons_of_mem a hb)
    · have hnil : t.filter p = [] :=
        List.filter_eq_nil_iff.2 fun b hb => by
          simp [hl b (List.mem_cons_of_mem a hb)]
      simp [List.filter_cons, hm, hpa, hnil]

theorem mem_of_mem_firstKeys {k : Nat} : ∀ {ks : List Nat}, k ∈ firstKeys ks → k ∈ ks := by
  intro ks
  induction ks with
  | nil => simp [firstKeys]
  | cons a t ih =>
    intro h
    simp only [firstKeys, List.mem_cons] at h
    rcases h with rfl | h
    · exact List.mem_cons_self _ _
    · exact List.mem_cons_of_mem a (ih (List.mem_of_mem_filter h))

theorem firstKeys_nodup : ∀ ks : List Nat, (firstKeys ks).Nodup := by
  intro ks
  induction ks with
  | nil => simp [firstKeys]
  | cons a t ih =>
    simp only [firstKeys]
    refine List.Pairwise.cons ?_ (ih.filter _)
    intro b hb
    have := List.of_mem_filter hb
    simp at this
    omega

theorem firstKeys_eq_self {ks : List Nat} (h : ks.Nodup) : firstKeys ks = ks := by
  induction ks with
  | nil => rfl
  | cons a t ih =>
    replace h := List.pairwise_cons.1 h
    simp only [firstKeys]
    rw [ih h.2]
    congr 1
    refine List.filter_eq_self.2 fun b hb => ?_
    have : a ≠ b := h.1 b hb
    simp
    omega

theorem pickClosest_mem {k : Nat} : ∀ {g : List Sample} {s : Sample},
    pickClosest k g = some s → s ∈ g := by
  have aux : ∀ (g : List Sample) (acc : Option Sample) (s : Sample),
      g.foldl
        (fun acc s =>
          match acc with
          | none => some s
          | some b => if natDist s.ts k < natDist b.ts k then some s else some b)
        acc = some s → s ∈ g ∨ acc = some s := by
    intro g
    induction g with
    | nil => intro acc s h; exact Or.inr h
    | cons x t ih =>
      intro acc s h
      simp only [List.foldl_cons] at h
      rcases ih _ s h with hmem | hstep
      · exact Or.inl (List.mem_cons_of_mem x hmem)
      · match acc, hstep with
        | none, hstep =>
          exact Or.inl (by simp at hstep; simp [hstep])
        | some b, hstep =>
          have hstep2 : (if natDist x.ts k < natDist b.ts k then some x else some b) = some s :=
            hstep
          by_cases hc : natDist x.ts k < natDist b.ts k
          · rw [if_pos hc] at hstep2
            exact Or.inl (by simp at hstep2; simp [hstep2])
          · rw [if_neg hc] at hstep2
            exact Or.inr hstep2
  intro g s h
  simp only [pickClosest] at h
  rcases aux g none s h with hmem | hbad
  · exact hmem
  · simp at hbad

theorem pickClosest_singleton (k : Nat) (s : Sample) :
    pickClosest k [s] = some s := rfl

/-- Among target samples with pairwise-distinct bucket keys, the
per-bucket dedup pass returns every sample unchanged, in order. -/
theorem filterMap_pick_of_nodup :
    ∀ T : List Sample, (T.map tkey).Nodup →
      ((T.map tkey).filterMap fun k => pickClosest k (T.filter fun s => tkey s == k)) = T := by
  intro T
  induction T with
  | nil => intro _; rfl
  | cons s t ih =>
    intro h
    replace h := List.pairwise_cons.1 h
    have hnotin : tkey s ∉ t.map tkey := by
      intro hmem
      rcases List.mem_map.1 hmem with ⟨x, hx, hxk⟩
      exact h.1 (tkey x) (List.mem_map_of_mem tkey hx) hxk.symm
    have hhead : ((s :: t).filter fun x => tkey x == tkey s) = [s] := by
      rw [List.filter_cons]
      simp only [beq_self_eq_true, if_pos]
      have : (t.filter fun x => tkey x == tkey s) = [] := by
        refine List.filter_eq_nil_iff.2 fun b hb => ?_
        have : tkey b ≠ tkey s := fun hc => hnotin (hc ▸ List.mem_map_of_mem tkey hb)
        simpa using this
      simp [this]
    have htail : ∀ k ∈ t.map tkey,
        ((s :: t).filter fun x => tkey x == k) = (t.filter fun x => tkey x == k) := by
      intro k hk
      rw [List.filter_cons]
      have : tkey s ≠ k := fun hc => hnotin (hc ▸ hk)
      simp [this]
    simp only [List.map_cons, List.filterMap_cons, hhead, pickClosest_singleton]
    congr 1
    calc (t.map tkey).filterMap (fun k => pickClosest k ((s :: t).filter fun x => tkey x == k))
        = (t.map tkey).filterMap (fun k => pickClosest k (t.filter fun x => tkey x == k)) := by
          refine List.filterMap_congr fun k hk => ?_
          rw [htail k hk]
      _ = t := ih h.2

theorem mem_dedupTargets_isTarget {l : List Sample} {s : Sample}
    (h : s ∈ dedupTargets l) : isTarget s = true ∧ tkey s ∈ firstKeys ((l.filter isTarget).map tkey) := by
  rcases List.mem_filterMap.1 h with ⟨k, hk, hpick⟩
  have hmem : s ∈ groupOf l k := pickClosest_mem hpick
  rw [groupOf] at hmem
  have h1 : s ∈ l.filter isTarget := List.mem_of_mem_filter hmem
  have h2 : tkey s = k := by simpa using List.of_mem_filter hmem
  exact ⟨List.of_mem_filter h1, h2 ▸ hk⟩

theorem map_tkey_dedupTargets (l : List Sample) :
    (dedupTargets l).map tkey =
      (firstKeys ((l.filter isTarget).map tkey)).filter
        (fun k => (pickClosest k (groupOf l k)).isSome) := by
  unfold dedupTargets
  generalize firstKeys ((l.filter isTarget).map tkey) = ks
  induction ks with
  | nil => rfl
  | cons k t ih =>
    rw [List.filterMap_cons, List.filter_cons]
    cases hp : pickClosest k (groupOf l k) with
    | none => simpa [hp] using ih
    | some s =>
      have hk : tkey s = k := by
        have := List.of_mem_filter (pickClosest_mem hp)
        simpa using this
      simp [hp, hk, ih]

theorem dedupTargets_nodup_keys (l : List Sample) :
    ((dedupTargets l).map tkey).Nodup := by
  rw [map_tkey_dedupTargets]
  exact (firstKeys_nodup _).filter _

theorem dedupTargets_eq_self {T : List Sample}
    (ht : ∀ s ∈ T, isTarget s = true) (hnd : (T.map tkey).Nodup) :
    dedupTargets T = T := by
  have hfil : T.filter isTarget = T := List.filter_eq_self.2 ht
  simp only [dedupTargets, groupOf, hfil, firstKeys_eq_self hnd]
  exact filterMap_pick_of_nodup T hnd

/-- Cleanup is the identity on a sorted all-target series with one sample
per canonical instant. -/
theorem cleanup_eq_self_of_targets {T : List Sample}
    (hs : TsSorted T) (ht : ∀ s ∈ T, isTarget s = true)
    (hnd : (T.map tkey).Nodup) :
    comprehensive_data_cleanup_with_dedup T = T := by
  by_cases hT : T.isEmpty
  · rw [List.isEmpty_iff.1 hT]
    rfl
  · have hnonfil : (T.filter fun s => !isTarget s) = [] :=
      List.filter_eq_nil_iff.2 fun s hsm => by simp [ht s hsm]
    simp only [comprehensive_data_cleanup_with_dedup, hT, if_false,
      Bool.false_eq_true, dedupTargets_eq_self ht hnd, hnonfil,
      sortByTs_eq_self hs]
    rw [show (sortByTs ([] : List Sample)).getLast? = none from rfl]
    exact sortByTs_eq_self hs

/-- Cleanup is the identity on such a series with one off-target sample
stably inserted. -/
theorem cleanup_eq_self_of_canonical {T : List Sample} {m : Sample}
    (hs : TsSorted T) (ht : ∀ s ∈ T, isTarget s = true)
    (hnd : (T.map tkey).Nodup) (hm : isTarget m = false) :
    comprehensive_data_cleanup_with_dedup (insertTs m T) = insertTs m T := by
  have hlen : (insertTs m T).length = T.length + 1 := by
    simpa using (insertTs_perm m T).length_eq
  have hne : ¬(insertTs m T).isEmpty := by
    rw [List.isEmpty_iff]
    intro h
    rw [h] at hlen
    simp at hlen
  have hfilT : (insertTs m T).filter isTarget = T := by
    rw [filter_insertTs_of_neg hm, List.filter_eq_self.2 ht]
  have hfilN : ((insertTs m T).filter fun s => !isTarget s) = [m] := by
    refine filter_insertTs_of_pos (by simp [hm]) fun a ha => by simp [ht a ha]
  have hdedup : dedupTargets (insertTs m T) = T := by
    simp only [dedupTargets, groupOf, hfilT, firstKeys_eq_self hnd]
    exact filterMap_pick_of_nodup T hnd
  simp only [comprehensive_data_cleanup_with_dedup, hne, if_false,
    Bool.false_eq_true, hdedup, hfilN, sortByTs_eq_self hs]
  have hsing : sortByTs [m] = [m] := rfl
  rw [hsing]
  simp only [List.getLast?_singleton]
  rw [sortByTs_append_singleton, sortByTs_eq_self hs]

/-- C1: the dedup/cleanup operation is idempotent — applying
`comprehensive_data_cleanup_with_dedup` to its own output returns that
output unchanged (same timestamps, blocks, and prices in the same order). -/
theorem cleanup_idempotent (l : List Sample) :
    comprehensive_data_cleanup_with_dedup (comprehensive_data_cleanup_with_dedup l)
      = comprehensive_data_cleanup_with_dedup l := by
  by_cases hl : l.isEmpty
  · rw [List.isEmpty_iff.1 hl]
    rfl
  · have hTs : TsSorted (sortByTs (dedupTargets l)) := sortByTs_sorted _
    have hTt : ∀ s ∈ sortByTs (dedupTargets l), isTarget s = true := fun s hs =>
      (mem_dedupTargets_isTarget ((sortByTs_perm _).mem_iff.1 hs)).1
    have hTnd : ((sortByTs (dedupTargets l)).map tkey).Nodup :=
      ((sortByTs_perm (dedupTargets l)).map tkey).nodup_iff.2 (dedupTargets_nodup_keys l)
    have hstep : comprehensive_data_cleanup_with_dedup l =
        sortByTs
          (match (sortByTs (l.filter fun s => !isTarget s)).getLast? with
          | some m => sortByTs (dedupTargets l) ++ [m]
          | none => sortByTs (dedupTargets l)) := by
      simp only [comprehensive_data_cleanup_with_dedup, hl, if_false, Bool.false_eq_true]
    cases hgl : (sortByTs (l.filter fun s => !isTarget s)).getLast? with
    | none =>
      rw [hstep, hgl]
      rw [show (sortByTs
          (match (none : Option Sample) with
          | some m => sortByTs (dedupTargets l) ++ [m]
          | none => sortByTs (dedupTargets l))) = sortByTs (sortByTs (dedupTargets l)) from rfl]
      rw [sortByTs_eq_self hTs]
      exact cleanup_eq_self_of_targets hTs hTt hTnd
    | some m =>
      have hm : isTarget m = false := by
        have hmem : m ∈ l.filter fun s => !isTarget s :=
          (sortByTs_perm _).mem_iff.1 (List.mem_of_getLast?_eq_some hgl)
        have := List.of_mem_filter hmem
        simpa using this
      rw [hstep, hgl]
      rw [show (sortByTs
          (match (some m : Option Sample) with
          | some m => sortByTs (dedupTargets l) ++ [m]
          | none => sortByTs (dedupTargets l))) = sortByTs (sortByTs (dedupTargets l) ++ [m]) from rfl]
      rw [sortByTs_append_singleton, sortByTs_eq_self hTs]
      exact cleanup_eq_self_of_canonical hTs hTt hTnd hm

/-- C4: for every 256-bit word `w`, `unpack_slot0 w` returns
`(sqrtPriceX96, tick, protocolFee, lpFee)` with `sqrtPriceX96` bits 0-159,
`tick` bits 160-183 read as a twos-complement 24-bit signed integer
(`2 ^ 24` subtracted exactly when bit 23 of the field is set, i.e. when the
field is at least `2 ^ 23`), `protocolFee` bits 184-207 and `lpFee`
bits 208-231. -/
theorem unpack_slot0_bit_fields (w : Nat) (h : w < 2 ^ 256) :
    unpack_slot0 w =
      (w % 2 ^ 160,
       (if w / 2 ^ 160 % 2 ^ 24 < 2 ^ 23 then ((w / 2 ^ 160 % 2 ^ 24 : Nat) : Int)
        else ((w / 2 ^ 160 % 2 ^ 24 : Nat) : Int) - 2 ^ 24),
       w / 2 ^ 184 % 2 ^ 24,
       w / 2 ^ 208 % 2 ^ 24) := by
  have hmask : ∀ n k : Nat, n &&& ((1 <<< k) - 1) = n % 2 ^ k := by
    intro n k
    rw [Nat.one_shiftLeft]
    exact Nat.and_pow_two_sub_one_eq_mod n k
  have hbit : ∀ n : Nat, n < 2 ^ 24 →
      ((n &&& (1 <<< 23) ≠ 0) ↔ ¬(n < 2 ^ 23)) := by
    intro n hn
    rw [Nat.one_shiftLeft, Nat.and_two_pow, Nat.testBit_to_div_mod]
    by_cases hd : n / 2 ^ 23 % 2 = 1
    · simp only [hd, decide_True]
      norm_num at hn hd ⊢
      omega
    · simp only [hd, decide_False]
      norm_num at hn hd ⊢
      omega
  simp only [unpack_slot0, Nat.shiftRight_eq_div_pow, hmask]
  refine Prod.ext rfl (Prod.ext ?_ rfl)
  by_cases hlt : w / 2 ^ 160 % 2 ^ 24 < 2 ^ 23
  · rw [if_neg, if_pos hlt]
    intro hc
    exact ((hbit _ (Nat.mod_lt _ (by norm_num))).1 hc) hlt
  · rw [if_pos, if_neg hlt]
    · simp [Nat.one_shiftLeft]
    · exact (hbit _ (Nat.mod_lt _ (by norm_num))).2 hlt

theorem unpack_slot0_bit_fields_witness :
    (5 + 3 * 2 ^ 160 + 7 * 2 ^ 184 + 9 * 2 ^ 208 : Nat) < 2 ^ 256 ∧
      unpack_slot0 (5 + 3 * 2 ^ 160 + 7 * 2 ^ 184 + 9 * 2 ^ 208) =
        ((5 + 3 * 2 ^ 160 + 7 * 2 ^ 184 + 9 * 2 ^ 208) % 2 ^ 160,
         (if (5 + 3 * 2 ^ 160 + 7 * 2 ^ 184 + 9 * 2 ^ 208) / 2 ^ 160 % 2 ^ 24 < 2 ^ 23
          then (((5 + 3 * 2 ^ 160 + 7 * 2 ^ 184 + 9 * 2 ^ 208) / 2 ^ 160 % 2 ^ 24 : Nat) : Int)
          else (((5 + 3 * 2 ^ 160 + 7 * 2 ^ 184 + 9 * 2 ^ 208) / 2 ^ 160 % 2 ^ 24 : Nat) : Int) - 2 ^ 24),
         (5 + 3 * 2 ^ 160 + 7 * 2 ^ 184 + 9 * 2 ^ 208) / 2 ^ 184 % 2 ^ 24,
         (5 + 3 * 2 ^ 160 + 7 * 2 ^ 184 + 9 * 2 ^ 208) / 2 ^ 208 % 2 ^ 24) :=
  ⟨by norm_num, unpack_slot0_bit_fields _ (by norm_num)⟩

/-- C9: near-target classification depends only on the UTC hour and minute
of the timestamp (the seconds component is ignored), and a timestamp at
00:30:59 — 1859 seconds past midnight — is still classified as near-target. -/
theorem is_target_time_hour_minute (t1 t2 : Nat)
    (hh : t1 / 3600 % 24 = t2 / 3600 % 24) (hm : t1 / 60 % 60 = t2 / 60 % 60) :
    is_target_time t1 30 = is_target_time t2 30 ∧ is_target_time 1859 30 = true := by
  refine ⟨?_, by decide⟩
  simp only [is_target_time]
  rw [hh, hm]

theorem is_target_time_hour_minute_witness :
    1830 / 3600 % 24 = 1859 / 3600 % 24 ∧ 1830 / 60 % 60 = 1859 / 60 % 60 ∧
      (is_target_time 1830 30 = is_target_time 1859 30 ∧ is_target_time 1859 30 = true) :=
  ⟨by decide, by decide, is_target_time_hour_minute 1830 1859 (by decide) (by decide)⟩

theorem retryGo_congr {f g : Nat → Option Nat} :
    ∀ fuel a, (∀ i, a ≤ i → i < a + fuel → f i = g i) →
      retryGo f a fuel = retryGo g a fuel := by
  intro fuel
  induction fuel with
  | zero => intro a _; rfl
  | succ n ih =>
    intro a h
    have h0 : f a = g a := h a (Nat.le_refl a) (by omega)
    simp only [retryGo, h0]
    cases g a with
    | some v => rfl
    | none =>
      rw [ih (a + 1) fun i h1 h2 => h i (by omega) (by omega)]

theorem retryGo_all_none {f : Nat → Option Nat} :
    ∀ fuel a, (∀ i, a ≤ i → i < a + fuel → f i = none) →
      retryGo f a fuel = (none, fuel) := by
  intro fuel
  induction fuel with
  | zero => intro a _; rfl
  | succ n ih =>
    intro a h
    have h0 : f a = none := h a (Nat.le_refl a) (by omega)
    simp only [retryGo, h0]
    rw [ih (a + 1) fun i h1 h2 => h i (by omega) (by omega)]

theorem retryGo_first_some {f : Nat → Option Nat} :
    ∀ fuel a k v, k < fuel → f (a + k) = some v →
      (∀ j, j < k → f (a + j) = none) →
      (retryGo f a fuel).1 = some v := by
  intro fuel
  induction fuel with
  | zero => intro a k v hk; omega
  | succ n ih =>
    intro a k v hk hfk hj
    cases k with
    | zero =>
      simp only [Nat.add_zero] at hfk
      simp [retryGo, hfk]
    | succ m =>
      have h0 : f a = none := by
        have := hj 0 (by omega)
        simpa using this
      simp only [retryGo, h0]
      have := ih (a + 1) m v (by omega)
        (by rw [show a + 1 + m = a + (m + 1) from by omega]; exact hfk)
        (fun j hjm => by
          rw [show a + 1 + j = a + (j + 1) from by omega]
          exact hj (j + 1) (by omega))
      simpa using this

/-- C5 (amended): the storage read attempts the fetch at most 5 times —
the result depends only on the first 5 attempt outcomes — returns the whole
word of the first successful attempt, and after all 5 attempts fail raises
an error carrying the slot and the retry count (the block is not part of
the error). -/
theorem get_storage_with_retry_spec (f g : Nat → Option Nat) (slot : Nat) (block : Int) :
    ((∀ i, i < 5 → f i = g i) →
        get_storage_with_retry f slot block 5 = get_storage_with_retry g slot block 5) ∧
      (∀ k v, k < 5 → f k = some v → (∀ j, j < k → f j = none) →
        get_storage_with_retry f slot block 5 = Except.ok v) ∧
      ((∀ i, i < 5 → f i = none) →
        get_storage_with_retry f slot block 5 = Except.error ⟨slot, 5⟩) := by
  refine ⟨?_, ?_, ?_⟩
  · intro h
    unfold get_storage_with_retry
    rw [retryGo_congr 5 0 fun i h1 h2 => h i (by omega)]
  · intro k v hk hfk hj
    unfold get_storage_with_retry
    rw [retryGo_first_some 5 0 k v hk (by simpa using hfk) (fun j hjk => by simpa using hj j hjk)]
  · intro h
    unfold get_storage_with_retry
    rw [retryGo_all_none 5 0 fun i h1 h2 => h i (by omega)]

theorem get_storage_with_retry_spec_witness :
    get_storage_with_retry (fun i => if i = 2 then some 77 else none) 9 1000 5 = Except.ok 77 ∧
      get_storage_with_retry (fun _ => none) 9 1000 5 = Except.error ⟨9, 5⟩ :=
  ⟨(get_storage_with_retry_spec (fun i => if i = 2 then some 77 else none)
      (fun i => if i = 2 then some 77 else none) 9 1000).2.1 2 77 (by decide) (by decide)
      (by decide),
   (get_storage_with_retry_spec (fun _ => none) (fun _ => none) 9 1000).2.2
      fun i _ => rfl⟩

/-- C5 counterexample: the exhaustion error does not carry the block — the
error raised for two different blocks (with identical attempt outcomes) is
the same value, carrying only the slot and the retry count. -/
theorem get_storage_with_retry_error_no_block :
    get_storage_with_retry (fun _ => none) 7 100 5
        = get_storage_with_retry (fun _ => none) 7 200 5 ∧
      get_storage_with_retry (fun _ => none) 7 100 5 = Except.error ⟨7, 5⟩ := by
  constructor <;> rfl

/-- C10: the block estimator never propagates an error (it is a total
function of the oracle) and always returns a block number at least 1; when
the reference-block fetch fails it falls back to the fixed rate of 2 seconds
per block and returns
`max 1 (currentBlock - int((currentTimestamp - targetTimestamp) / 2))`. -/
theorem estimate_block_total_and_fallback (getBlockTs : Int → Option Nat)
    (targetTimestamp currentBlock currentTimestamp : Nat) :
    1 ≤ estimate_block_from_timestamp getBlockTs targetTimestamp currentBlock currentTimestamp ∧
      (getBlockTs (max 1 ((currentBlock : Int) - 43200)) = none →
        estimate_block_from_timestamp getBlockTs targetTimestamp currentBlock currentTimestamp
          = max 1 ((currentBlock : Int) -
              ((currentTimestamp : Int) - (targetTimestamp : Int)).tdiv 2)) := by
  constructor
  · simp only [estimate_block_from_timestamp]
    cases hgb : getBlockTs (max 1 ((currentBlock : Int) - 43200)) with
    | none => exact le_max_left 1 _
    | some sampleTs => exact le_max_left 1 _
  · intro hfail
    simp only [estimate_block_from_timestamp, hfail]

theorem estimate_block_total_and_fallback_witness :
    1 ≤ estimate_block_from_timestamp (fun _ => none) 0 100 1000 ∧
      estimate_block_from_timestamp (fun _ => none) 0 100 1000
        = max 1 ((100 : Int) - ((1000 : Int) - (0 : Int)).tdiv 2) :=
  ⟨(estimate_block_total_and_fallback (fun _ => none) 0 100 1000).1,
   (estimate_block_total_and_fallback (fun _ => none) 0 100 1000).2 rfl⟩

/-- C2 (amended): while the gap exceeds 1800 seconds and fewer than 10
attempts were made, the loop adjusts the guessed block by `int(gap / 2)` —
truncated division by the constant 2 seconds per block, independent of the
Step-1 rate — in the direction that reduces the gap, then refetches and
increments the attempt counter. -/
theorem correction_loop_step (g : Int → Option Nat) (target attempts : Nat)
    (est : Int) (actual : Nat)
    (hgap : 1800 < natDist actual target) (hatt : attempts < 10) :
    (g (correctionAdjust est actual target) = none →
        correction_loop g target attempts est actual = (none, 1)) ∧
      (∀ a2, g (correctionAdjust est actual target) = some a2 →
        correction_loop g target attempts est actual
          = ((correction_loop g target (attempts + 1) (correctionAdjust est actual target) a2).1,
             (correction_loop g target (attempts + 1) (correctionAdjust est actual target) a2).2 + 1)) ∧
      (actual < target →
        correctionAdjust est actual target = est + (((target - actual) / 2 : Nat) : Int) ∧
          est ≤ correctionAdjust est actual target) ∧
      (target < actual →
        correctionAdjust est actual target = est - (((actual - target) / 2 : Nat) : Int) ∧
          correctionAdjust est actual target ≤ est) := by
  refine ⟨?_, ?_, ?_, ?_⟩
  · intro hnone
    rw [correction_loop, dif_pos ⟨hgap, hatt⟩]
    simp only [hnone]
  · intro a2 hsome
    rw [correction_loop, dif_pos ⟨hgap, hatt⟩]
    simp only [hsome]
  · intro h
    refine ⟨by simp [correctionAdjust, h], ?_⟩
    simp only [correctionAdjust, if_pos h]
    have : (0 : Int) ≤ (((target - actual) / 2 : Nat) : Int) := Int.natCast_nonneg _
    omega
  · intro h
    have hna : ¬actual < target := by omega
    refine ⟨by simp [correctionAdjust, hna], ?_⟩
    simp only [correctionAdjust, if_neg hna]
    have : (0 : Int) ≤ (((actual - target) / 2 : Nat) : Int) := Int.natCast_nonneg _
    omega

theorem correction_loop_step_witness :
    correction_loop (fun _ => some 3600) 3600 0 100 7200 = (some (-1700, 3600), 1) ∧
      correctionAdjust 100 7200 3600 = 100 - (((7200 - 3600) / 2 : Nat) : Int) := by
  have h := correction_loop_step (fun _ => some 3600) 3600 0 100 7200 (by decide) (by decide)
  refine ⟨?_, (h.2.2.2 (by decide)).1⟩
  have hrec := h.2.1 3600 rfl
  rw [hrec]
  rw [show correctionAdjust 100 7200 3600 = -1700 from by decide]
  rw [correction_loop, dif_neg (by decide)]

/-- C2 counterexample: at a state where the Step-1 rate is 4 seconds per
block and the gap is 3600 seconds (so the guard `gap > 1800`, `attempts < 10`
holds), the code moves the guess by `int(3600 / 2) = 1800` blocks, while the
claimed `round(gap / secondsPerBlock) = round(3600 / 4) = 900` differs. -/
theorem correction_step_not_spec_rate :
    step1_rate 172800 43200 = 4 ∧
      natDist 7200 3600 = 3600 ∧ 1800 < natDist 7200 3600 ∧
      correctionAdjust 998000 7200 3600 = 998000 - 1800 ∧
      (998000 : Int) - round ((natDist 7200 3600 : ℚ) / step1_rate 172800 43200)
        = 998000 - 900 ∧
      correctionAdjust 998000 7200 3600
        ≠ 998000 - round ((natDist 7200 3600 : ℚ) / step1_rate 172800 43200) := by
  have h4 : step1_rate 172800 43200 = 4 := by norm_num [step1_rate]
  have hd : natDist 7200 3600 = 3600 := by decide
  have hadj : correctionAdjust 998000 7200 3600 = 998000 - 1800 := by decide
  have hround : round ((natDist 7200 3600 : ℚ) / step1_rate 172800 43200) = (900 : Int) := by
    rw [h4, hd]
    rw [show ((3600 : Nat) : ℚ) / (4 : ℚ) = ((900 : Int) : ℚ) from by norm_num]
    exact round_intCast 900
  refine ⟨h4, hd, by decide, hadj, by rw [hround], ?_⟩
  rw [hadj, hround]
  decide

theorem removeNonTargets_eq_filter (l : List Sample) :
    removeNonTargets l = l.filter isTarget := by
  induction l with
  | nil => rfl
  | cons s t ih =>
    simp only [removeNonTargets, List.filter_cons]
    cases hs : isTarget s <;> simp [hs, ih]

theorem update_current_price_eq_filter_append (l : List Sample) (now : Nat)
    (b : Int) (p : ℚ) :
    update_current_price l now b p = l.filter isTarget ++ [⟨now, b, p⟩] := by
  rw [update_current_price, removeNonTargets_eq_filter]

/-- C3 (amended): `update_current_price` removes every off-bucket sample and
appends exactly one fresh sample `(now, block, price)`; the resulting series
contains exactly one off-bucket sample when `now` is not within the
30-minute tolerance of a canonical instant, and zero otherwise (the fresh
sample is itself near-target then). -/
theorem update_current_price_spec (l : List Sample) (now : Nat) (b : Int) (p : ℚ) :
    update_current_price l now b p = l.filter isTarget ++ [⟨now, b, p⟩] ∧
      ((update_current_price l now b p).filter fun s => !isTarget s).length
        = if is_target_time now 30 then 0 else 1 := by
  have h1 := update_current_price_eq_filter_append l now b p
  refine ⟨h1, ?_⟩
  rw [h1, List.filter_append]
  have h2 : ((l.filter isTarget).filter fun s => !isTarget s) = [] := by
    refine List.filter_eq_nil_iff.2 fun s hs => by simp [List.of_mem_filter hs]
  rw [h2, List.nil_append]
  have h3 : isTarget ⟨now, b, p⟩ = is_target_time now 30 := rfl
  cases h : is_target_time now 30 <;> simp [List.filter_cons, h3, h]

/-- C3 counterexample: with an empty series and current timestamp 0 — exactly
midnight UTC, which is classified near-target — the updated series has zero
off-bucket samples, not exactly one. -/
theorem update_current_price_offbucket_zero :
    ¬((update_current_price [] 0 1 2).filter fun s => !isTarget s).length = 1 := by
  decide

theorem removeOldTargets_eq_filter (c : Nat) (l : List Sample) :
    removeOldTargets c l
      = l.filter fun s => !(isTarget s && decide (s.ts < c)) := by
  induction l with
  | nil => rfl
  | cons s t ih =>
    simp only [removeOldTargets, List.filter_cons]
    by_cases h : isTarget s = true ∧ s.ts < c
    · rw [if_pos h]
      have hb : (!(isTarget s && decide (s.ts < c))) = false := by
        simp [h.1, h.2]
      rw [hb, if_neg (by simp), ih]
    · rw [if_neg h]
      have hb : (!(isTarget s && decide (s.ts < c))) = true := by
        rcases Decidable.not_and_iff_or_not.1 h with h1 | h1 <;> simp [h1]
      rw [hb, if_pos rfl, ih]

theorem enforce_30_day_limit_eq_filter (now : Nat) (l : List Sample) :
    enforce_30_day_limit now l
      = l.filter (fun s =>
          !(is_target_time s.ts 30 && decide (s.ts < startOfUTCDay now - 29 * 86400))) := by
  by_cases hl : l.isEmpty
  · rw [List.isEmpty_iff.1 hl]
    rfl
  · rw [enforce_30_day_limit, if_neg hl]
    exact removeOldTargets_eq_filter _ l

/-- C6: `enforce_30_day_limit` removes exactly the near-target samples with
timestamp below `startOfUTCDay now - 29 days`, keeps everything else in
order (the result is a sublist of the input), and in particular keeps every
off-bucket sample regardless of its age. -/
theorem enforce_30_day_limit_spec (now : Nat) (l : List Sample) :
    enforce_30_day_limit now l
        = l.filter (fun s =>
            !(is_target_time s.ts 30 && decide (s.ts < startOfUTCDay now - 29 * 86400))) ∧
      (enforce_30_day_limit now l).Sublist l ∧
      ∀ s ∈ l, is_target_time s.ts 30 = false → s ∈ enforce_30_day_limit now l := by
  have heq := enforce_30_day_limit_eq_filter now l
  refine ⟨heq, by rw [heq]; exact List.filter_sublist l, ?_⟩
  intro s hs hnt
  rw [heq]
  refine List.mem_filter.2 ⟨hs, ?_⟩
  have : isTarget s = false := hnt
  simp [isTarget] at this
  simp [this]

theorem enforce_30_day_limit_spec_witness :
    enforce_30_day_limit (30 * 86400) [⟨50, 1, 1⟩, ⟨9000, 2, 2⟩]
        = [⟨50, 1, 1⟩, ⟨9000, 2, 2⟩].filter (fun s =>
            !(is_target_time s.ts 30 &&
              decide (s.ts < startOfUTCDay (30 * 86400) - 29 * 86400))) ∧
      (⟨9000, 2, 2⟩ : Sample) ∈ enforce_30_day_limit (30 * 86400) [⟨50, 1, 1⟩, ⟨9000, 2, 2⟩] :=
  ⟨(enforce_30_day_limit_spec (30 * 86400) [⟨50, 1, 1⟩, ⟨9000, 2, 2⟩]).1,
   (enforce_30_day_limit_spec (30 * 86400) [⟨50, 1, 1⟩, ⟨9000, 2, 2⟩]).2.2
     ⟨9000, 2, 2⟩ (by decide) (by decide)⟩

theorem insertChronological_perm (x : Sample) (l : List Sample) :
    List.Perm (insertChronological x l) (x :: l) := by
  induction l with
  | nil => exact List.Perm.refl _
  | cons a t ih =>
    simp only [insertChronological]
    split
    · exact (ih.cons a).trans (List.Perm.swap x a t)
    · exact List.Perm.refl _

theorem insertChronological_pairwise {x : Sample} {l : List Sample}
    (h : TsSorted l) : TsSorted (insertChronological x l) := by
  induction l with
  | nil => simp [insertChronological]
  | cons a t ih =>
    replace h := List.pairwise_cons.1 h
    simp only [insertChronological]
    split
    · rename_i hax
      refine List.pairwise_cons.2 ⟨?_, ih h.2⟩
      intro b hb
      rcases List.mem_cons.1 ((insertChronological_perm x t).mem_iff.1 hb) with rfl | hb
      · omega
      · exact h.1 b hb
    · rename_i hax
      refine List.pairwise_cons.2 ⟨?_, List.pairwise_cons.2 ⟨h.1, h.2⟩⟩
      intro b hb
      rcases List.mem_cons.1 hb with rfl | hb
      · omega
      · have := h.1 b hb
        omega

/-- C7 (amended): dedup/cleanup always leaves the timestamps non-decreasing;
retention enforcement and backfill insertion preserve non-decreasing
timestamps; the current-price update preserves them provided the current
timestamp is at least every timestamp already in the series. -/
theorem core_ops_sorted :
    (∀ l, TsSorted (comprehensive_data_cleanup_with_dedup l)) ∧
      (∀ now l, TsSorted l → TsSorted (enforce_30_day_limit now l)) ∧
      (∀ x l, TsSorted l → TsSorted (insertChronological x l)) ∧
      (∀ l now b p, TsSorted l → (∀ s ∈ l, s.ts ≤ now) →
        TsSorted (update_current_price l now b p)) := by
  refine ⟨?_, ?_, ?_, ?_⟩
  · intro l
    by_cases hl : l.isEmpty
    · rw [List.isEmpty_iff.1 hl]
      exact List.Pairwise.nil
    · simp only [comprehensive_data_cleanup_with_dedup, hl, if_false, Bool.false_eq_true]
      exact sortByTs_sorted _
  · intro now l h
    rw [enforce_30_day_limit_eq_filter now l]
    exact List.Pairwise.filter _ h
  · intro x l h
    exact insertChronological_pairwise h
  · intro l now b p h hle
    rw [update_current_price_eq_filter_append l now b p]
    refine List.pairwise_append.2 ⟨List.Pairwise.filter _ h, List.pairwise_singleton _ _, ?_⟩
    intro a ha c hc
    rcases List.mem_singleton.1 hc with rfl
    exact hle a (List.mem_of_mem_filter ha)

theorem core_ops_sorted_witness :
    TsSorted (comprehensive_data_cleanup_with_dedup [⟨100, 1, 1⟩]) ∧
      TsSorted (enforce_30_day_limit 0 [⟨100, 1, 1⟩]) ∧
      TsSorted (update_current_price [⟨100, 1, 1⟩] 200 2 2) :=
  ⟨core_ops_sorted.1 [⟨100, 1, 1⟩],
   core_ops_sorted.2.1 0 [⟨100, 1, 1⟩] (by decide),
   core_ops_sorted.2.2.2 [⟨100, 1, 1⟩] 200 2 2 (by decide) (by decide)⟩

/-- C7 counterexample: the current-price update run with a current timestamp
older than an existing near-target sample leaves the timestamps out of
order, so the sort invariant does not hold unconditionally after every core
operation. -/
theorem update_current_price_unsorted :
    ¬TsSorted (update_current_price [⟨1000, 0, 0⟩] 500 0 0) := by
  decide

/-- C8: if every canonical instant of the active 30-day window that is
earlier than the current timestamp is already covered — within the
30-minute tolerance — by an existing near-target sample, the backfill
issues zero network calls and returns the series unchanged. -/
theorem backfill_noop (ch : ChainOracle) (currentBlock currentTimestamp : Nat)
    (l : List Sample)
    (hcov : ∀ t ∈ canonical_instants currentTimestamp, t < currentTimestamp →
      ∃ s ∈ l, is_target_time s.ts 30 = true ∧ natDist s.ts t < 30 * 60) :
    collect_historical_data ch currentBlock currentTimestamp l = (l, 0) := by
  have hmiss : get_missing_timestamps (l.map Sample.ts) currentTimestamp = [] := by
    simp only [get_missing_timestamps]
    have hfil : ((canonical_instants currentTimestamp).filter fun t =>
        t < currentTimestamp &&
          !((l.map Sample.ts).filter fun ts => is_target_time ts 30).contains t &&
          !((l.map Sample.ts).filter fun ts => is_target_time ts 30).any
            fun e => natDist e t < 30 * 60) = [] := by
      refine List.filter_eq_nil_iff.2 fun t ht => ?_
      by_cases hlt : t < currentTimestamp
      · rcases hcov t ht hlt with ⟨s, hsmem, hstarget, hsclose⟩
        have hex : s.ts ∈ (l.map Sample.ts).filter fun ts => is_target_time ts 30 :=
          List.mem_filter.2 ⟨List.mem_map_of_mem Sample.ts hsmem, hstarget⟩
        have hany : (((l.map Sample.ts).filter fun ts => is_target_time ts 30).any
            fun e => natDist e t < 30 * 60) = true :=
          List.any_eq_true.2 ⟨s.ts, hex, by simpa using hsclose⟩
        simp [hany]
      · simp [hlt]
    rw [hfil]
    rfl
  rw [collect_historical_data, hmiss]
  rfl

theorem backfill_noop_witness :
    collect_historical_data ⟨fun _ => none, fun _ _ _ => none⟩ 0 0 [] = ([], 0) :=
  backfill_noop ⟨fun _ => none, fun _ _ _ => none⟩ 0 0 [] (by decide)

end PriceMonitor
